import Mathlib

/-!
Verification of the scanner and graph/risk analysis engine of `xray.py`
(qa-xray-utility).  The Python source is shallowly embedded: strings are
`List Char`, the regular-expression patterns are translated into a small
executable matcher with Python `re` semantics (leftmost match, greedy
quantifiers over character classes, ordered alternation, capture groups,
`findall`/`finditer` behaviour), and the directory walk is modelled over an
explicit filesystem tree.
-/

/- ===================== string helpers ===================== -/

abbrev Str := List Char

/-- Coerce a Lean string literal to the `List Char` representation. -/
def S (s : String) : Str := s.data

/-- Python `str.lower()` (per-character lowercasing). -/
def lower (s : Str) : Str := s.map Char.toLower

/-- Python substring test `needle in hay`. -/
def strContains (hay needle : Str) : Bool :=
  match hay with
  | [] => needle.isEmpty
  | _ :: t => needle.isPrefixOf hay || strContains t needle

/-- Python `s.split(sep)` for a one-character separator: always returns a
non-empty list of (possibly empty) segments. -/
def splitOnC (sep : Char) : Str → List Str
  | [] => [[]]
  | c :: t =>
    match splitOnC sep t with
    | [] => [[]]
    | h :: r => if c == sep then [] :: h :: r else (c :: h) :: r

/-- Last element of a list of segments (Python `lst[-1]`; the list produced by
`split` is never empty, so the default is never hit). -/
def lastD : List Str → Str
  | [] => []
  | [x] => x
  | _ :: x :: t => lastD (x :: t)

/-- Final segment after the last occurrence of `sep` (`s.split(sep)[-1]`). -/
def pyLastSeg (sep : Char) (s : Str) : Str := lastD (splitOnC sep s)

/-- Join path components with forward slashes, as `os.path.relpath(...)
.replace('\\', '/')` produces for a file under the scan root. -/
def joinSlash (l : List String) : String := String.intercalate ("/") l

/-- Python `os.path.basename` on a forward-slash path. -/
def basenameStr (s : String) : String := String.mk (pyLastSeg '/' s.data)

/- ===================== regular-expression engine ===================== -/

/-- Abstract syntax for the fragment of Python regular expressions used by the
patterns in `xray.py`: literals, character classes (with greedy `*`/`+`),
concatenation, ordered alternation, numbered capture groups, and the `^`
anchor (no `re.MULTILINE` is passed anywhere in the source, so `^` matches
only at the start of the whole content). -/
inductive RE where
  | eps : RE
  | bos : RE
  | str (l : Str) : RE
  | cls (p : Char → Bool) : RE
  | clsStar (p : Char → Bool) : RE
  | clsPlus (p : Char → Bool) : RE
  | seq (a b : RE) : RE
  | alt (a b : RE) : RE
  | group (i : Nat) (a : RE) : RE

/-- Capture-group store.  The source patterns use at most two groups; Python
`findall` substitutes the empty string for a group that did not participate
in the match, which is the initial value here. -/
abbrev Caps := Str × Str

def setG (i : Nat) (s : Str) (g : Caps) : Caps :=
  if i = 1 then (s, g.2) else if i = 2 then (g.1, s) else g

/-- Match a literal, optionally case-insensitively (`re.IGNORECASE` compares
characters after case folding). -/
def strMatch (ci : Bool) : Str → Str → Option Str
  | [], s => some s
  | _ :: _, [] => none
  | c :: l, d :: s =>
      if (if ci then c.toLower == d.toLower else c == d) then strMatch ci l s else none

/-- Greedy matching of `p*` (or `p+` when `minOne`): all ways to consume a
prefix of class characters, longest first, which is the backtracking order of
a greedy Python quantifier. -/
def starSplits (p : Char → Bool) (s : Str) (pos : Nat) (g : Caps) (minOne : Bool) :
    List (Str × Nat × Caps) :=
  let run := (s.takeWhile p).length
  let ks := (List.range (run + 1)).map (fun j => run - j)
  let ks2 := if minOne then ks.filter (fun k => decide (0 < k)) else ks
  ks2.map (fun k => (s.drop k, pos + k, g))

/-- Backtracking matcher: all ways for `r` to match a prefix of `s` (which
starts at absolute offset `pos` of the content), in Python priority order
(first element = the match Python's engine commits to).  Every character
class appearing in the source patterns is closed under case changes, so
classes ignore the `ci` flag; `ci` only affects literals. -/
def mtch (ci : Bool) : RE → Str → Nat → Caps → List (Str × Nat × Caps)
  | .eps, s, pos, g => [(s, pos, g)]
  | .bos, s, pos, g => if pos = 0 then [(s, pos, g)] else []
  | .str l, s, pos, g =>
      match strMatch ci l s with
      | some s2 => [(s2, pos + l.length, g)]
      | none => []
  | .cls p, s, pos, g =>
      match s with
      | [] => []
      | c :: s2 => if p c then [(s2, pos + 1, g)] else []
  | .clsStar p, s, pos, g => starSplits p s pos g false
  | .clsPlus p, s, pos, g => starSplits p s pos g true
  | .seq a b, s, pos, g => (mtch ci a s pos g).flatMap (fun x => mtch ci b x.1 x.2.1 x.2.2)
  | .alt a b, s, pos, g => mtch ci a s pos g ++ mtch ci b s pos g
  | .group i a, s, pos, g =>
      (mtch ci a s pos g).map (fun x => (x.1, x.2.1, setG i (s.take (x.2.1 - pos)) x.2.2))

/-- Number of capture groups of a pattern (decides the shape of the values
`re.findall` returns). -/
def numGroups : RE → Nat
  | .eps | .bos | .str _ | .cls _ | .clsStar _ | .clsPlus _ => 0
  | .seq a b | .alt a b => numGroups a + numGroups b
  | .group _ a => numGroups a + 1

/-- Leftmost match search from offset `pos` (`s` is the content suffix
starting at `pos`): Python's scan loop that tries each start offset in turn.
Returns `(start, end, groups)`. -/
def searchFromAux (ci : Bool) (r : RE) : Str → Nat → Option (Nat × Nat × Caps)
  | [], pos =>
    match (mtch ci r [] pos ([], [])).head? with
    | some x => some (pos, x.2.1, x.2.2)
    | none => none
  | c :: t, pos =>
    match (mtch ci r (c :: t) pos ([], [])).head? with
    | some x => some (pos, x.2.1, x.2.2)
    | none => searchFromAux ci r t (pos + 1)

/-- Non-overlapping scan of `re.finditer`: after a match the search resumes at
its end offset (one past the start for an empty match).  The fuel
`content.length + 1` covers every possible start offset. -/
def findIterAux (ci : Bool) (r : RE) (content : Str) : Nat → Nat → List (Nat × Nat × Caps)
  | 0, _ => []
  | Nat.succ fuel, pos =>
    match searchFromAux ci r (content.drop pos) pos with
    | none => []
    | some (st, en, g) =>
        (st, en, g) :: findIterAux ci r content fuel (if st < en then en else st + 1)

/-- All non-overlapping matches of `r` in `content`, in order of occurrence,
as `(start, end, groups)` triples. -/
def findIter (ci : Bool) (r : RE) (content : Str) : List (Nat × Nat × Caps) :=
  findIterAux ci r content (content.length + 1) 0

/-- Shape of one element of the list `re.findall` returns: a plain string when
the pattern has exactly one capture group, a tuple of group values when it
has more. -/
inductive PyGroups where
  | one (g : Str) : PyGroups
  | two (g1 g2 : Str) : PyGroups
deriving DecidableEq

/-- Python `re.findall`: group values of every non-overlapping match. -/
def findall (r : RE) (content : Str) : List PyGroups :=
  (findIter false r content).map (fun m =>
    if numGroups r = 1 then PyGroups.one m.2.2.1 else PyGroups.two m.2.2.1 m.2.2.2)

/-- Embedding of `next((x for x in m if x), None)` from `scan_project`.
When `m` is a tuple, this picks the first non-empty group.  When `m` is a
plain string (single-group pattern), Python iterates over its CHARACTERS, so
the expression yields the first character as a one-character string — this
faithfully reproduces that behaviour. -/
def firstTruthy : PyGroups → Option Str
  | .one g =>
      match g with
      | [] => none
      | c :: _ => some [c]
  | .two a b => if a ≠ [] then some a else if b ≠ [] then some b else none

/- ===================== character classes of the source patterns ========== -/

def isWordChar (c : Char) : Bool := c.isAlphanum || c == '_'

def isSpaceChar (c : Char) : Bool :=
  c == ' ' || c == '\t' || c == '\n' || c == '\r' || c == '\x0b' || c == '\x0c'

/-- Class `["']` (`Char.ofNat 39` is the apostrophe). -/
def quoteCls (c : Char) : Bool := c == '"' || c == Char.ofNat 39

/-- Class `[^"']`. -/
def notQuoteCls (c : Char) : Bool := !(quoteCls c)

/-- Class `[\w\.]`. -/
def wordDotCls (c : Char) : Bool := isWordChar c || c == '.'

/-- Class `[\w\s{},*]` (`Char.ofNat 123/125` are the braces). -/
def tsBindCls (c : Char) : Bool :=
  isWordChar c || isSpaceChar c || c == Char.ofNat 123 || c == Char.ofNat 125 || c == ',' || c == '*'

def lit (s : String) : RE := RE.str s.data

def reSeq (l : List RE) : RE := l.foldr RE.seq RE.eps

/- ===================== IMPORT_PATTERNS ===================== -/

/-- Pattern for key `'ts'`:
`(?:import|export)\s+(?:[\w\s{},*]+)\s+from\s+['"]([^'"]+)['"]|require\(['"]([^'"]+)['"]\)`. -/
def tsRE : RE :=
  RE.alt
    (reSeq [RE.alt (lit ("import")) (lit ("export")), RE.clsPlus isSpaceChar,
            RE.clsPlus tsBindCls, RE.clsPlus isSpaceChar, lit ("from"),
            RE.clsPlus isSpaceChar, RE.cls quoteCls,
            RE.group 1 (RE.clsPlus notQuoteCls), RE.cls quoteCls])
    (reSeq [lit ("require("), RE.cls quoteCls,
            RE.group 2 (RE.clsPlus notQuoteCls), RE.cls quoteCls, lit (")")])

/-- Pattern for key `'js'`: the source string is identical to the `'ts'` one. -/
def jsRE : RE := tsRE

/-- Pattern for key `'py'`: `^(?:from|import)\s+([\w\.]+)`. -/
def pyRE : RE :=
  reSeq [RE.bos, RE.alt (lit ("from")) (lit ("import")), RE.clsPlus isSpaceChar,
         RE.group 1 (RE.clsPlus wordDotCls)]

/-- Pattern for key `'java'`: `^import\s+([\w\.]+);`. -/
def javaRE : RE :=
  reSeq [RE.bos, lit ("import"), RE.clsPlus isSpaceChar,
         RE.group 1 (RE.clsPlus wordDotCls), lit (";")]

/-- Pattern for key `'groovy'`: `^import\s+([\w\.]+)`. -/
def groovyRE : RE :=
  reSeq [RE.bos, lit ("import"), RE.clsPlus isSpaceChar, RE.group 1 (RE.clsPlus wordDotCls)]

def IMPORT_PATTERNS : List (Str × RE) :=
  [(S ("ts"), tsRE), (S ("js"), jsRE), (S ("py"), pyRE),
   (S ("java"), javaRE), (S ("groovy"), groovyRE)]

/-- Association-list lookup for the import pattern table. -/
def lookupRE (key : Str) : List (Str × RE) → Option RE
  | [] => none
  | (k, r) :: rest => if k = key then some r else lookupRE key rest

/- ===================== RISK_PATTERNS ===================== -/

/-- Risk pattern `(password|passwd|pwd)\s*=\s*["'][^"']+["']`. -/
def pwdRE : RE :=
  reSeq [RE.group 1 (RE.alt (lit ("password")) (RE.alt (lit ("passwd")) (lit ("pwd")))),
         RE.clsStar isSpaceChar, lit ("="), RE.clsStar isSpaceChar,
         RE.cls quoteCls, RE.clsPlus notQuoteCls, RE.cls quoteCls]

/-- Risk pattern `(api_key|secret|token)\s*=\s*["'][^"']+["']`. -/
def secretRE : RE :=
  reSeq [RE.group 1 (RE.alt (lit ("api_key")) (RE.alt (lit ("secret")) (lit ("token")))),
         RE.clsStar isSpaceChar, lit ("="), RE.clsStar isSpaceChar,
         RE.cls quoteCls, RE.clsPlus notQuoteCls, RE.cls quoteCls]

/-- Risk pattern `(time\.sleep|Thread\.sleep|await\s+page\.waitForTimeout|WebUI\.delay)`. -/
def sleepRE : RE :=
  RE.group 1 (RE.alt (lit ("time.sleep")) (RE.alt (lit ("Thread.sleep"))
    (RE.alt (reSeq [lit ("await"), RE.clsPlus isSpaceChar, lit ("page.waitForTimeout")])
            (lit ("WebUI.delay")))))

/-- Risk pattern `(console\.log|System\.out\.print|print\(|println)`. -/
def logRE : RE :=
  RE.group 1 (RE.alt (lit ("console.log")) (RE.alt (lit ("System.out.print"))
    (RE.alt (lit ("print(")) (lit ("println")))))

/-- The fixed risk catalog `(name, pattern, severity, remediation)`, in source
order. -/
def RISK_PATTERNS : List (String × RE × String × String) :=
  [("🛑 Hardcoded Password", pwdRE, "High", "Move to environment variables."),
   ("🛑 API Key / Secret", secretRE, "Critical", "Revoke and use a Vault."),
   ("⚠️ Hardcoded Sleep", sleepRE, "Medium", "Use explicit waits."),
   ("⚠️ Console Log", logRE, "Low", "Use a Logger.")]

/- ===================== classifier ===================== -/

structure RiskFinding where
  type : String
  line : Nat
  severity : String
  fix : String
deriving DecidableEq

/-- The dictionary appended for one match at start offset `k`:
`{"type": rname, "line": content.count('\n', 0, m.start()) + 1, ...}`. -/
def mkFinding (rname severity fix : String) (content : Str) (k : Nat) : RiskFinding :=
  { type := rname, line := (content.take k).count '\n' + 1, severity := severity, fix := fix }

/-- Risk findings of one file, paired with the start offset of the match that
produced each: the source iterates the catalog in order and, per pattern,
iterates `re.finditer(pat, content, re.IGNORECASE)` in match order. -/
def riskHits (content : Str) : List (Nat × RiskFinding) :=
  RISK_PATTERNS.flatMap (fun rp =>
    (findIter true rp.2.1 content).map (fun m =>
      (m.1, mkFinding rp.1 rp.2.2.1 rp.2.2.2 content m.1)))

/-- The `risks` list stored in a FileRecord. -/
def scanRisks (content : Str) : List RiskFinding := (riskHits content).map Prod.snd

/-- Objective detection from `scan_project`: attempted only when the lowercased
filename contains "test" or "spec"; first matching content signature wins. -/
def objectivesOf (f content : Str) : List String :=
  if strContains (lower f) (S ("test")) || strContains (lower f) (S ("spec")) then
    if strContains content (S ("@Test")) then ["Java/TestNG Test"]
    else if strContains content (S ("test(")) then ["JS/Playwright Test"]
    else ["Automated Script"]
  else []

/-- Heuristic purpose detection (`get_file_purpose` in the source; the content
argument is accepted and ignored, as in the source). -/
def get_file_purpose (filename : String) (content : String) : String :=
  let name := lower filename.data
  if strContains name (S ("package.json")) then "📦 Node.js Dependencies" else
  if strContains name (S ("pom.xml")) then "📦 Maven Build Config" else
  if strContains name (S ("build.gradle")) then "📦 Gradle Build Config" else
  if strContains name (S ("requirements.txt")) then "📦 Python Dependencies" else
  if strContains name (S ("docker-compose")) then "🐳 Docker Services" else
  if strContains name (S ("dockerfile")) then "🐳 Container Definition" else
  if strContains name (S ("jenkinsfile")) then "🤖 Jenkins Pipeline" else
  if strContains name (S ("playwright.config")) then "⚙️ Playwright Config" else
  if strContains name (S ("cypress.config")) then "⚙️ Cypress Config" else
  if strContains name (S ("readme.md")) then "📖 Project Documentation" else
  if strContains name (S (".env")) then "🔐 Environment Config" else
  if strContains name (S (".gitignore")) then "🚫 Git Ignore" else
  if strContains name (S ("test")) || strContains name (S ("spec")) then "🧪 Test Script" else
  if strContains name (S (".java")) then "☕ Java Source" else
  if strContains name (S (".py")) then "🐍 Python Source" else
  if strContains name (S (".js")) || strContains name (S (".ts")) then "📜 JS/TS Source" else
  if strContains name (S (".groovy")) then "🧪 Katalon Script" else
  if strContains name (S (".cs")) then "🔷 C# Source" else
  "📝 Source File"

/- ===================== import extractor ===================== -/

/-- Import extraction from `scan_project`:
`ext = '.' + f.split('.')[-1]; key = ext[1:]`, then for each `findall` value
append the first truthy component if any. -/
def importsOf (f content : Str) : List Str :=
  let ext : Str := '.' :: pyLastSeg '.' f
  let key : Str := ext.drop 1
  match lookupRE key IMPORT_PATTERNS with
  | none => []
  | some r =>
      (findall r content).foldl (fun acc m =>
        match firstTruthy m with
        | some imp => acc ++ [imp]
        | none => acc) []

/- ===================== file walker ===================== -/

def TEXT_EXTENSIONS : List String :=
  [".ts", ".js", ".py", ".java", ".groovy", ".gradle", ".tsx", ".jsx", ".sh",
   ".yml", ".yaml", ".json", ".md", ".txt", ".xml", ".dockerfile", ".properties",
   ".cs", ".go", ".rb", ".php", ".rs", ".tf"]

def IGNORED : List String :=
  ["node_modules", ".git", "venv", "dist", "bin", "obj", ".idea", "target", ".vscode"]

/-- File admission: `f.endswith(TEXT_EXTENSIONS) or f in ['Dockerfile', 'Jenkinsfile']`. -/
def admitted (f : String) : Bool :=
  TEXT_EXTENSIONS.any (fun e => e.data.isSuffixOf f.data) || f == "Dockerfile" || f == "Jenkinsfile"

/-- Contents of a directory, as an ordered chain of entries (files carry their
decoded text content; `errors='ignore'` decoding never fails). -/
inductive Ent where
  | nil : Ent
  | file (name : String) (content : String) (rest : Ent) : Ent
  | dir (name : String) (entries : Ent) (rest : Ent) : Ent
deriving DecidableEq

/-- Files listed in one `os.walk` triple: the files of the current directory,
paired with the directory's component path below the root. -/
def walkFiles (pre : List String) : Ent → List (List String × String × String)
  | .nil => []
  | .file n c rest => (pre, n, c) :: walkFiles pre rest
  | .dir _ _ rest => walkFiles pre rest

/-- Descent of `os.walk` into subdirectories, after the pruning
`dirs[:] = [d for d in dirs if d not in IGNORED]`: a pruned directory is not
descended into at all. -/
def walkDirs (ign : List String) (pre : List String) : Ent → List (List String × String × String)
  | .nil => []
  | .file _ _ rest => walkDirs ign pre rest
  | .dir n entries rest =>
      (if ign.contains n then []
       else walkFiles (pre ++ [n]) entries ++ walkDirs ign (pre ++ [n]) entries)
      ++ walkDirs ign pre rest

/-- All files yielded by `os.walk` over the root, in traversal order.  A
missing or unreadable root is `none`: `os.walk` is called with the default
`onerror=None`, so the `scandir` error is swallowed and the walk yields
nothing. -/
def osWalkAll (ign : List String) : Option Ent → List (List String × String × String)
  | none => []
  | some e => walkFiles [] e ++ walkDirs ign [] e

structure FileData where
  purpose : String
  risks : List RiskFinding
  objectives : List String
  raw_imports : List Str
deriving DecidableEq

/-- The record built for one admitted file inside the walk loop. -/
def processFile (name content : String) : FileData :=
  { purpose := get_file_purpose name content
  , risks := scanRisks content.data
  , objectives := objectivesOf name.data content.data
  , raw_imports := importsOf name.data content.data }

/-- Python dict assignment `files_data[rel_path] = record`: replaces in place
if the key exists, otherwise appends (dicts preserve insertion order). -/
def dictInsert (d : List (String × FileData)) (k : String) (v : FileData) :
    List (String × FileData) :=
  if d.any (fun p => p.1 == k) then d.map (fun p => if p.1 == k then (k, v) else p)
  else d ++ [(k, v)]

/- ===================== graph builder ===================== -/

/-- Reverse-index update `used_by[tgt].add(src)` on the `defaultdict(set)`: set semantics per key,
insertion order of keys preserved. -/
def addUsed (ub : List (Str × List String)) (tgt : Str) (src : String) :
    List (Str × List String) :=
  match ub with
  | [] => [(tgt, [src])]
  | (t, srcs) :: rest =>
      if t = tgt then (t, if src ∈ srcs then srcs else srcs ++ [src]) :: rest
      else (t, srcs) :: addUsed rest tgt src

/-- Inner loop of the graph builder over one record's `raw_imports`:
`tgt = imp.split('/')[-1]; if tgt and len(tgt) > 1:` emit an edge and a
reverse-index entry. -/
def buildFile (src : String) :
    List Str → List (String × Str) × List (Str × List String) →
    List (String × Str) × List (Str × List String)
  | [], acc => acc
  | imp :: rest, (es, ub) =>
      let tgt := pyLastSeg '/' imp
      if tgt ≠ [] ∧ 1 < tgt.length then
        buildFile src rest (es ++ [(basenameStr src, tgt)], addUsed ub tgt src)
      else buildFile src rest (es, ub)

/-- Outer loop of the graph builder over `files_data.items()`. -/
def buildAux :
    List (String × FileData) → List (String × Str) × List (Str × List String) →
    List (String × Str) × List (Str × List String)
  | [], acc => acc
  | (src, d) :: rest, acc => buildAux rest (buildFile src d.raw_imports acc)

/-- Graph construction `build(file_records) -> (edges, used_by)`. -/
def buildGraph (fd : List (String × FileData)) :
    List (String × Str) × List (Str × List String) :=
  buildAux fd ([], [])

/- ===================== scan_project ===================== -/

/-- The core scanner: walk the root, admit files, classify and extract, then
build the graph.  Returns `(files_data, graph_edges, used_by)`. -/
def scan_project (root : Option Ent) :
    List (String × FileData) × List (String × Str) × List (Str × List String) :=
  let files_data := (osWalkAll IGNORED root).foldl
    (fun acc e =>
      if admitted e.2.1 then dictInsert acc (joinSlash (e.1 ++ [e.2.1])) (processFile e.2.1 e.2.2)
      else acc) []
  let g := buildGraph files_data
  (files_data, g.1, g.2)

/- ===================== spec-side definitions ===================== -/

/-- Modelled from the spec wording for the purpose cascade: the ordered list of
(filename-substring, tag) rules of `get_file_purpose`, the combined
"test"/"spec" rule split into two consecutive rules with the same tag. -/
def PURPOSE_RULES : List (Str × String) :=
  [(S ("package.json"), "📦 Node.js Dependencies"),
   (S ("pom.xml"), "📦 Maven Build Config"),
   (S ("build.gradle"), "📦 Gradle Build Config"),
   (S ("requirements.txt"), "📦 Python Dependencies"),
   (S ("docker-compose"), "🐳 Docker Services"),
   (S ("dockerfile"), "🐳 Container Definition"),
   (S ("jenkinsfile"), "🤖 Jenkins Pipeline"),
   (S ("playwright.config"), "⚙️ Playwright Config"),
   (S ("cypress.config"), "⚙️ Cypress Config"),
   (S ("readme.md"), "📖 Project Documentation"),
   (S (".env"), "🔐 Environment Config"),
   (S (".gitignore"), "🚫 Git Ignore"),
   (S ("test"), "🧪 Test Script"),
   (S ("spec"), "🧪 Test Script"),
   (S (".java"), "☕ Java Source"),
   (S (".py"), "🐍 Python Source"),
   (S (".js"), "📜 JS/TS Source"),
   (S (".ts"), "📜 JS/TS Source"),
   (S (".groovy"), "🧪 Katalon Script"),
   (S (".cs"), "🔷 C# Source")]

/-- Modelled from the spec wording: evaluate substring rules top to bottom and
return the tag of the first rule whose substring occurs in the (already
lowercased) name, falling back to the default tag. -/
def firstRuleMatch (name : Str) : List (Str × String) → String → String
  | [], dflt => dflt
  | (sub, tag) :: rest, dflt =>
      if strContains name sub then tag else firstRuleMatch name rest dflt

/- ===================== concrete witness data ===================== -/

/-- Record collection with one long, one one-character, and one
trailing-slash import, used to exercise the graph builder. -/
def sampleRecords : List (String × FileData) :=
  [("src/login.js", FileData.mk ("📜 JS/TS Source") [] []
      [S ("../utils/auth"), S ("o"), S ("x/")])]

/-- Small tree: an ignored directory containing a file, plus an admitted and
a non-admitted file at the root. -/
def sampleTree : Ent :=
  Ent.dir ("node_modules") (Ent.file ("a.js") ("") Ent.nil)
    (Ent.file ("b.js") ("") (Ent.file ("c.exe") ("") Ent.nil))


/- ===================== engine lemmas ===================== -/

theorem starSplits_pos_le (p : Char → Bool) (s : Str) (pos : Nat) (g : Caps) (b : Bool) :
    ∀ x ∈ starSplits p s pos g b, pos ≤ x.2.1 := by
  intro x hx
  simp only [starSplits] at hx
  rcases List.mem_map.1 hx with ⟨k, _, rfl⟩
  exact Nat.le_add_right pos k

theorem mtch_pos_le (ci : Bool) (r : RE) :
    ∀ (s : Str) (pos : Nat) (g : Caps), ∀ x ∈ mtch ci r s pos g, pos ≤ x.2.1 := by
  induction r with
  | eps =>
    intro s pos g x hx
    simp only [mtch, List.mem_singleton] at hx
    simp [hx]
  | bos =>
    intro s pos g x hx
    simp only [mtch] at hx
    split at hx
    · simp only [List.mem_singleton] at hx; simp [hx]
    · simp at hx
  | str l =>
    intro s pos g x hx
    simp only [mtch] at hx
    split at hx
    · simp only [List.mem_singleton] at hx; simp [hx]
    · simp at hx
  | cls p =>
    intro s pos g x hx
    simp only [mtch] at hx
    split at hx
    · simp at hx
    · split at hx
      · simp only [List.mem_singleton] at hx; simp [hx]
      · simp at hx
  | clsStar p =>
    intro s pos g x hx
    exact starSplits_pos_le p s pos g false x hx
  | clsPlus p =>
    intro s pos g x hx
    exact starSplits_pos_le p s pos g true x hx
  | seq a b iha ihb =>
    intro s pos g x hx
    simp only [mtch] at hx
    rcases List.mem_flatMap.1 hx with ⟨y, hy, hxy⟩
    exact Nat.le_trans (iha s pos g y hy) (ihb y.1 y.2.1 y.2.2 x hxy)
  | alt a b iha ihb =>
    intro s pos g x hx
    simp only [mtch, List.mem_append] at hx
    rcases hx with hx | hx
    · exact iha s pos g x hx
    · exact ihb s pos g x hx
  | group i a ih =>
    intro s pos g x hx
    simp only [mtch] at hx
    rcases List.mem_map.1 hx with ⟨y, hy, rfl⟩
    exact ih s pos g y hy

theorem searchFromAux_le (ci : Bool) (r : RE) :
    ∀ (s : Str) (pos st en : Nat) (g : Caps),
      searchFromAux ci r s pos = some (st, en, g) → pos ≤ st ∧ st ≤ en := by
  intro s
  induction s with
  | nil =>
    intro pos st en g h
    unfold searchFromAux at h
    cases hm : (mtch ci r [] pos ([], [])).head? with
    | none => rw [hm] at h; simp at h
    | some y =>
      rw [hm] at h
      simp only [Option.some.injEq, Prod.mk.injEq] at h
      obtain ⟨h1, h2, _⟩ := h
      have hy := mtch_pos_le ci r [] pos ([], []) y (List.mem_of_mem_head? hm)
      omega
  | cons c t ih =>
    intro pos st en g h
    unfold searchFromAux at h
    cases hm : (mtch ci r (c :: t) pos ([], [])).head? with
    | none =>
      rw [hm] at h
      have := ih (pos + 1) st en g h
      exact ⟨Nat.le_trans (Nat.le_succ pos) this.1, this.2⟩
    | some y =>
      rw [hm] at h
      simp only [Option.some.injEq, Prod.mk.injEq] at h
      obtain ⟨h1, h2, _⟩ := h
      have hy := mtch_pos_le ci r (c :: t) pos ([], []) y (List.mem_of_mem_head? hm)
      omega

theorem findIterAux_start_ge (ci : Bool) (r : RE) (content : Str) :
    ∀ (fuel pos : Nat), ∀ x ∈ findIterAux ci r content fuel pos, pos ≤ x.1 := by
  intro fuel
  induction fuel with
  | zero => intro pos x hx; simp [findIterAux] at hx
  | succ n ih =>
    intro pos x hx
    unfold findIterAux at hx
    cases hs : searchFromAux ci r (content.drop pos) pos with
    | none => rw [hs] at hx; simp at hx
    | some y =>
      obtain ⟨st, en, g⟩ := y
      rw [hs] at hx
      simp only [List.mem_cons] at hx
      have hse := searchFromAux_le ci r (content.drop pos) pos st en g hs
      rcases hx with rfl | hx
      · exact hse.1
      · have h2 := ih (if st < en then en else st + 1) x hx
        have h3 : st < (if st < en then en else st + 1) := by split <;> omega
        omega

theorem findIterAux_chain (ci : Bool) (r : RE) (content : Str) :
    ∀ (fuel pos : Nat),
      List.Chain' (fun a b : Nat × Nat × Caps => a.1 < b.1) (findIterAux ci r content fuel pos) := by
  intro fuel
  induction fuel with
  | zero => intro pos; simp [findIterAux]
  | succ n ih =>
    intro pos
    unfold findIterAux
    cases hs : searchFromAux ci r (content.drop pos) pos with
    | none => simp
    | some y =>
      obtain ⟨st, en, g⟩ := y
      rw [List.chain'_cons']
      refine ⟨?_, ih _⟩
      intro b hb
      have hb' := List.mem_of_mem_head? hb
      have h2 := findIterAux_start_ge ci r content n _ b hb'
      have h3 : st < (if st < en then en else st + 1) := by split <;> omega
      omega

/- ===== C4 ===== -/

/-- C4: every risk finding reported for a match starting at offset `k` carries
line number equal to (number of newline characters before `k`) + 1. -/
theorem risk_line_counts_newlines_before_match (content : Str) :
    ∀ hit ∈ riskHits content, hit.2.line = (content.take hit.1).count '\n' + 1 := by
  intro hit h
  simp only [riskHits] at h
  rcases List.mem_flatMap.1 h with ⟨rp, _, hm⟩
  rcases List.mem_map.1 hm with ⟨m, _, rfl⟩
  rfl

theorem risk_line_witness :
    ((0, RiskFinding.mk ("🛑 Hardcoded Password") 1 ("High") ("Move to environment variables."))
        ∈ riskHits (S ("password = \"x\""))) ∧
    (0, RiskFinding.mk ("🛑 Hardcoded Password") 1 ("High") ("Move to environment variables.")).2.line
      = ((S ("password = \"x\"")).take
          (0, RiskFinding.mk ("🛑 Hardcoded Password") 1 ("High") ("Move to environment variables.")).1).count '\n' + 1 := by
  refine ⟨by decide, ?_⟩
  exact risk_line_counts_newlines_before_match (S ("password = \"x\"")) _ (by decide)

/- ===== C2 ===== -/

/-- C2 amended: risks are grouped by risk category in the fixed catalog order,
and within each single category the findings are ordered by increasing match
offset. -/
theorem risks_grouped_by_category_offset_ordered_within (content : Str) :
    scanRisks content =
      RISK_PATTERNS.flatMap (fun rp =>
        (findIter true rp.2.1 content).map (fun m => mkFinding rp.1 rp.2.2.1 rp.2.2.2 content m.1)) ∧
    ∀ rp ∈ RISK_PATTERNS,
      List.Chain' (fun a b : Nat × Nat × Caps => a.1 < b.1) (findIter true rp.2.1 content) := by
  constructor
  · simp only [scanRisks, riskHits, List.map_flatMap, List.map_map]
    rfl
  · intro rp _
    exact findIterAux_chain true rp.2.1 content (content.length + 1) 0

theorem risks_grouping_witness :
    (("🛑 Hardcoded Password", pwdRE, ("High" : String), ("Move to environment variables." : String))
        ∈ RISK_PATTERNS) ∧
    List.Chain' (fun a b : Nat × Nat × Caps => a.1 < b.1)
      (findIter true pwdRE (S ("password = \"x\""))) := by
  have hm : ("🛑 Hardcoded Password", pwdRE, ("High" : String), ("Move to environment variables." : String))
      ∈ RISK_PATTERNS := by simp [RISK_PATTERNS]
  exact ⟨hm, (risks_grouped_by_category_offset_ordered_within (S ("password = \"x\""))).2 _ hm⟩

/-- C2 counterexample: for a file whose content has a Console-Log match at
offset 0 and a Hardcoded-Password match at offset 9, the risks sequence lists
the password finding (line 2) before the log finding (line 1): insertion
order is category-major, not ordered by match offset. -/
theorem risks_cross_category_not_offset_ordered :
    riskHits (S ("print(x)\npassword = \"y\"")) =
      [(9, RiskFinding.mk ("🛑 Hardcoded Password") 2 ("High") ("Move to environment variables.")),
       (0, RiskFinding.mk ("⚠️ Console Log") 1 ("Low") ("Use a Logger."))] ∧
    ¬ List.Chain' (fun a b : Nat × RiskFinding => a.1 ≤ b.1)
        (riskHits (S ("print(x)\npassword = \"y\""))) := by
  refine ⟨by decide, ?_⟩
  intro h
  have he : riskHits (S ("print(x)\npassword = \"y\"")) =
      [(9, RiskFinding.mk ("🛑 Hardcoded Password") 2 ("High") ("Move to environment variables.")),
       (0, RiskFinding.mk ("⚠️ Console Log") 1 ("Low") ("Use a Logger."))] := by decide
  rw [he] at h
  simp [List.chain'_cons] at h

/- ===== C1 ===== -/

/-- C1 (code bug): for the single-group pattern of key `py`, the captured
group of the only match of `import os` is the full module name `os`, but the
token the extractor emits is just `o` — `re.findall` returns plain strings
for single-group patterns and `next((x for x in m if x), None)` then iterates
over the characters of that string. -/
theorem py_import_extraction_emits_first_char_only :
    (findIter false pyRE (S ("import os\n"))).map (fun m => m.2.2.1) = [S ("os")] ∧
    importsOf (S ("a.py")) (S ("import os\n")) = [S ("o")] := by
  exact ⟨by decide, by decide⟩

/- ===== C3 ===== -/

/-- C3 counterexample: scanning a missing or inaccessible root returns the
empty FileRecord collection, empty edge list, and empty reverse index — the
scan does not fail, because `os.walk` is invoked with the default
`onerror=None`, which swallows the `scandir` error. -/
theorem scan_missing_root_silently_empty :
    scan_project none = ([], [], []) := rfl

/-- C3 amended: a missing root silently yields the empty result, which is
exactly the result of scanning an empty directory — the two cases are
indistinguishable to the caller. -/
theorem scan_missing_root_indistinguishable_from_empty :
    scan_project none = scan_project (some Ent.nil) ∧
    scan_project (some Ent.nil) = ([], [], []) := ⟨rfl, rfl⟩

/- ===== C5 / C6 graph lemmas ===== -/

theorem addUsed_keys (p : Str → Prop) :
    ∀ (ub : List (Str × List String)) (tgt : Str) (src : String),
      (∀ u ∈ ub, p u.1) → p tgt → ∀ u ∈ addUsed ub tgt src, p u.1 := by
  intro ub
  induction ub with
  | nil =>
    intro tgt src _ hp u hu
    simp only [addUsed, List.mem_singleton] at hu
    simp [hu, hp]
  | cons h0 rest ih =>
    intro tgt src hall hp u hu
    obtain ⟨t, srcs⟩ := h0
    simp only [addUsed] at hu
    split at hu
    · rcases List.mem_cons.1 hu with rfl | hu
      · exact hall (t, srcs) (List.mem_cons_self _ _)
      · exact hall u (List.mem_cons_of_mem _ hu)
    · rcases List.mem_cons.1 hu with rfl | hu
      · exact hall (t, srcs) (List.mem_cons_self _ _)
      · exact ih tgt src (fun v hv => hall v (List.mem_cons_of_mem _ hv)) hp u hu

theorem buildFile_short_inv (src : String) :
    ∀ (imps : List Str) (es : List (String × Str)) (ub : List (Str × List String)),
      (∀ e ∈ es, 1 < e.2.length) → (∀ u ∈ ub, 1 < u.1.length) →
      (∀ e ∈ (buildFile src imps (es, ub)).1, 1 < e.2.length) ∧
      (∀ u ∈ (buildFile src imps (es, ub)).2, 1 < u.1.length) := by
  intro imps
  induction imps with
  | nil =>
    intro es ub h1 h2
    exact ⟨h1, h2⟩
  | cons imp rest ih =>
    intro es ub h1 h2
    simp only [buildFile]
    split
    · rename_i hc
      apply ih
      · intro e he
        rcases List.mem_append.1 he with he | he
        · exact h1 e he
        · simp only [List.mem_singleton] at he
          simp [he, hc.2]
      · exact addUsed_keys (fun t => 1 < t.length) ub _ src h2 hc.2
    · exact ih es ub h1 h2

theorem buildAux_short_inv :
    ∀ (fd : List (String × FileData)) (es : List (String × Str)) (ub : List (Str × List String)),
      (∀ e ∈ es, 1 < e.2.length) → (∀ u ∈ ub, 1 < u.1.length) →
      (∀ e ∈ (buildAux fd (es, ub)).1, 1 < e.2.length) ∧
      (∀ u ∈ (buildAux fd (es, ub)).2, 1 < u.1.length) := by
  intro fd
  induction fd with
  | nil => intro es ub h1 h2; exact ⟨h1, h2⟩
  | cons x rest ih =>
    intro es ub h1 h2
    obtain ⟨src, d⟩ := x
    simp only [buildAux]
    have hf := buildFile_short_inv src d.raw_imports es ub h1 h2
    rcases hb : buildFile src d.raw_imports (es, ub) with ⟨es2, ub2⟩
    rw [hb] at hf
    exact ih es2 ub2 hf.1 hf.2

/-- C5: the graph builder emits no edge and no reverse-index entry for any
raw token whose final path segment has length at most 1: every edge target
and every reverse-index key has length strictly greater than 1. -/
theorem graph_excludes_short_tokens (fd : List (String × FileData)) :
    (∀ e ∈ (buildGraph fd).1, 1 < e.2.length) ∧
    (∀ u ∈ (buildGraph fd).2, 1 < u.1.length) := by
  exact buildAux_short_inv fd [] [] (by simp) (by simp)

theorem graph_excludes_short_tokens_witness :
    ((("login.js" : String), S ("auth")) ∈ (buildGraph sampleRecords).1) ∧
    1 < ((("login.js" : String), S ("auth"))).2.length := by
  exact ⟨by decide, (graph_excludes_short_tokens sampleRecords).1 _ (by decide)⟩

theorem buildFile_len (src : String) :
    ∀ (imps : List Str) (es : List (String × Str)) (ub : List (Str × List String)),
      (buildFile src imps (es, ub)).1.length =
        es.length + imps.countP (fun imp => decide (1 < (pyLastSeg '/' imp).length)) := by
  intro imps
  induction imps with
  | nil => intro es ub; simp [buildFile]
  | cons imp rest ih =>
    intro es ub
    simp only [buildFile]
    split
    · rename_i hc
      rw [ih]
      simp [List.countP_cons, hc.2]
      omega
    · rename_i hc
      have hlen : ¬ 1 < (pyLastSeg '/' imp).length := by
        intro hgt
        apply hc
        refine ⟨?_, hgt⟩
        intro hnil
        rw [hnil] at hgt
        simp at hgt
      rw [ih]
      simp [List.countP_cons, hlen]

theorem buildAux_len :
    ∀ (fd : List (String × FileData)) (es : List (String × Str)) (ub : List (Str × List String)),
      (buildAux fd (es, ub)).1.length =
        es.length + (fd.map (fun p =>
          p.2.raw_imports.countP (fun imp => decide (1 < (pyLastSeg '/' imp).length)))).sum := by
  intro fd
  induction fd with
  | nil => intro es ub; simp [buildAux]
  | cons x rest ih =>
    intro es ub
    obtain ⟨src, d⟩ := x
    simp only [buildAux]
    rcases hb : buildFile src d.raw_imports (es, ub) with ⟨es2, ub2⟩
    have hl := buildFile_len src d.raw_imports es ub
    rw [hb] at hl
    simp only [List.map_cons, List.sum_cons]
    rw [ih es2 ub2, hl]
    omega

/-- C6: the number of edges the graph builder produces equals the total
number of raw import entries, over all FileRecords, whose final path segment
is longer than one character (duplicates included on both sides). -/
theorem edge_count_equals_long_token_imports (fd : List (String × FileData)) :
    (buildGraph fd).1.length =
      (fd.map (fun p =>
        p.2.raw_imports.countP (fun imp => decide (1 < (pyLastSeg '/' imp).length)))).sum := by
  have h := buildAux_len fd [] []
  simpa using h

/- ===== C7 walker lemmas ===== -/

theorem walkFiles_pre :
    ∀ (t : Ent) (pre : List String), ∀ x ∈ walkFiles pre t, x.1 = pre := by
  intro t
  induction t with
  | nil => intro pre x hx; simp [walkFiles] at hx
  | file n c rest ih =>
    intro pre x hx
    simp only [walkFiles, List.mem_cons] at hx
    rcases hx with rfl | hx
    · rfl
    · exact ih pre x hx
  | dir n entries rest ihe ihr =>
    intro pre x hx
    simp only [walkFiles] at hx
    exact ihr pre x hx

theorem walkDirs_components :
    ∀ (t : Ent) (ign pre : List String),
      (∀ d ∈ pre, ign.contains d = false) →
      ∀ x ∈ walkDirs ign pre t, ∀ d ∈ x.1, ign.contains d = false := by
  intro t
  induction t with
  | nil => intro ign pre _ x hx; simp [walkDirs] at hx
  | file n c rest ih =>
    intro ign pre hpre x hx
    simp only [walkDirs] at hx
    exact ih ign pre hpre x hx
  | dir n entries rest ihe ihr =>
    intro ign pre hpre x hx
    simp only [walkDirs, List.mem_append] at hx
    rcases hx with hx | hx
    · split at hx
      · simp at hx
      · rename_i hn
        have hn' : ign.contains n = false := by
          cases h : ign.contains n
          · rfl
          · exact absurd h hn
        have hpre' : ∀ d ∈ pre ++ [n], ign.contains d = false := by
          intro d hd
          rcases List.mem_append.1 hd with hd | hd
          · exact hpre d hd
          · simp only [List.mem_singleton] at hd
            rw [hd]
            exact hn'
        rcases List.mem_append.1 hx with hx | hx
        · have := walkFiles_pre entries (pre ++ [n]) x hx
          rw [this]
          exact hpre'
        · exact ihe ign (pre ++ [n]) hpre' x hx
    · exact ihr ign pre hpre x hx

theorem dictInsert_mem :
    ∀ (d : List (String × FileData)) (k : String) (v : FileData) (q : String × FileData),
      q ∈ dictInsert d k v → q = (k, v) ∨ q ∈ d := by
  intro d k v q hq
  simp only [dictInsert] at hq
  split at hq
  · rcases List.mem_map.1 hq with ⟨p, hp, he⟩
    split at he
    · exact Or.inl he.symm
    · exact Or.inr (he ▸ hp)
  · rcases List.mem_append.1 hq with hq | hq
    · exact Or.inr hq
    · simp only [List.mem_singleton] at hq
      exact Or.inl hq

theorem scanFold_mem :
    ∀ (l : List (List String × String × String)) (acc : List (String × FileData))
      (q : String × FileData),
      q ∈ l.foldl (fun acc e =>
        if admitted e.2.1 then
          dictInsert acc (joinSlash (e.1 ++ [e.2.1])) (processFile e.2.1 e.2.2)
        else acc) acc →
      q ∈ acc ∨ ∃ e ∈ l, q.1 = joinSlash (e.1 ++ [e.2.1]) := by
  intro l
  induction l with
  | nil => intro acc q hq; exact Or.inl hq
  | cons e rest ih =>
    intro acc q hq
    simp only [List.foldl_cons] at hq
    rcases ih _ q hq with hq2 | ⟨e2, he2, hk⟩
    · by_cases ha : admitted e.2.1 = true
      · rw [if_pos ha] at hq2
        rcases dictInsert_mem acc _ _ q hq2 with rfl | hq3
        · exact Or.inr ⟨e, List.mem_cons_self _ _, rfl⟩
        · exact Or.inl hq3
      · rw [if_neg ha] at hq2
        exact Or.inl hq2
    · exact Or.inr ⟨e2, List.mem_cons_of_mem _ he2, hk⟩

/-- C7: no file yielded by the pruned walk lies inside a directory whose name
is in the ignore set (at any depth), and consequently every FileRecord key is
the slash-join of non-ignored directory components plus a filename. -/
theorem ignored_dirs_pruned_from_scan (t : Ent) :
    (∀ x ∈ osWalkAll IGNORED (some t), ∀ d ∈ x.1, IGNORED.contains d = false) ∧
    (∀ q ∈ (scan_project (some t)).1, ∃ pre name,
      q.1 = joinSlash (pre ++ [name]) ∧ ∀ d ∈ pre, IGNORED.contains d = false) := by
  have hwalk : ∀ x ∈ osWalkAll IGNORED (some t), ∀ d ∈ x.1, IGNORED.contains d = false := by
    intro x hx
    simp only [osWalkAll, List.mem_append] at hx
    rcases hx with hx | hx
    · have := walkFiles_pre t [] x hx
      rw [this]
      simp
    · exact walkDirs_components t IGNORED [] (by simp) x hx
  refine ⟨hwalk, ?_⟩
  intro q hq
  have hq' : q ∈ (osWalkAll IGNORED (some t)).foldl (fun acc e =>
      if admitted e.2.1 then
        dictInsert acc (joinSlash (e.1 ++ [e.2.1])) (processFile e.2.1 e.2.2)
      else acc) [] := hq
  rcases scanFold_mem _ [] q hq' with h | ⟨e, he, hk⟩
  · simp at h
  · exact ⟨e.1, e.2.1, hk, hwalk e he⟩

theorem ignored_dirs_pruned_witness :
    ((("b.js" : String), processFile ("b.js") ("")) ∈ (scan_project (some sampleTree)).1) ∧
    (∃ pre name, ("b.js" : String) = joinSlash (pre ++ [name]) ∧
      ∀ d ∈ pre, IGNORED.contains d = false) := by
  refine ⟨by decide, ?_⟩
  exact (ignored_dirs_pruned_from_scan sampleTree).2 (("b.js" : String), processFile ("b.js") ("")) (by decide)

/- ===== C8 ===== -/

/-- C8: `get_file_purpose` is exactly the top-to-bottom first-match evaluation
of the ordered substring-rule cascade with the generic source-file fallback;
in particular `test.package.json`, whose lowercased name contains both
`package.json` and `test`, classifies as the Node.js manifest because the
manifest rule precedes the test rule. -/
theorem purpose_is_first_matching_rule (f c : String) :
    get_file_purpose f c = firstRuleMatch (lower f.data) PURPOSE_RULES ("📝 Source File") ∧
    get_file_purpose ("test.package.json") ("") = "📦 Node.js Dependencies" ∧
    strContains (lower (S ("test.package.json"))) (S ("test")) = true := by
  refine ⟨?_, by decide, by decide⟩
  cases htest : strContains (lower f.data) (S ("test")) <;>
  cases hspec : strContains (lower f.data) (S ("spec")) <;>
  cases hjs : strContains (lower f.data) (S (".js")) <;>
  cases hts : strContains (lower f.data) (S (".ts")) <;>
  simp [get_file_purpose, PURPOSE_RULES, firstRuleMatch, htest, hspec, hjs, hts]

/- ===== C9 ===== -/

/-- C9: for a file whose lowercased name contains `test` or `spec` the
objectives list is exactly one tag — the TestNG tag if the content contains
`@Test`, else the Playwright tag if it contains `test(`, else the generic
tag; for any other file the objectives list is empty. -/
theorem objectives_single_tag (f c : Str) :
    ((strContains (lower f) (S ("test")) = true ∨ strContains (lower f) (S ("spec")) = true) →
      objectivesOf f c =
        [if strContains c (S ("@Test")) then "Java/TestNG Test"
         else if strContains c (S ("test(")) then "JS/Playwright Test"
         else "Automated Script"] ∧
      (objectivesOf f c).length = 1) ∧
    ((strContains (lower f) (S ("test")) = false ∧ strContains (lower f) (S ("spec")) = false) →
      objectivesOf f c = []) := by
  constructor
  · intro h
    have hb : (strContains (lower f) (S ("test")) || strContains (lower f) (S ("spec"))) = true := by
      rcases h with h | h <;> simp [h]
    have heq : objectivesOf f c =
        [if strContains c (S ("@Test")) then "Java/TestNG Test"
         else if strContains c (S ("test(")) then "JS/Playwright Test"
         else "Automated Script"] := by
      simp only [objectivesOf, hb, if_true]
      split
      · rfl
      · split <;> rfl
    exact ⟨heq, by rw [heq]; rfl⟩
  · intro ⟨h1, h2⟩
    simp [objectivesOf, h1, h2]

theorem objectives_single_tag_witness :
    (strContains (lower (S ("login.test.js"))) (S ("test")) = true ∨
      strContains (lower (S ("login.test.js"))) (S ("spec")) = true) ∧
    objectivesOf (S ("login.test.js")) (S ("test(x)")) = ["JS/Playwright Test"] := by
  have h : strContains (lower (S ("login.test.js"))) (S ("test")) = true := by decide
  have happ := (objectives_single_tag (S ("login.test.js")) (S ("test(x)"))).1 (Or.inl h)
  refine ⟨Or.inl h, ?_⟩
  rw [happ.1]
  decide

/- ===== C10 ===== -/

theorem splitOnC_no_sep (sep : Char) :
    ∀ s : Str, sep ∉ s → splitOnC sep s = [s] := by
  intro s
  induction s with
  | nil => intro _; rfl
  | cons c t ih =>
    intro h
    have hcs : ¬ c = sep := by
      intro he
      exact h (by rw [he]; exact List.mem_cons_self sep t)
    have hc : (c == sep) = false := beq_eq_false_iff_ne.mpr hcs
    simp only [splitOnC, ih (fun hm => h (List.mem_cons_of_mem c hm)), hc]
    simp

/-- C10: an admitted file whose name contains no dot — necessarily
`Dockerfile` or `Jenkinsfile` — always has an empty `raw_imports`: the lookup
key, the text after the last dot, is then the whole filename, which is not a
key of the import pattern table. -/
theorem dotless_admitted_no_imports (f c : String) :
    '.' ∉ f.data → admitted f = true → importsOf f.data c.data = [] := by
  intro hdot hadm
  have hf : f = "Dockerfile" ∨ f = "Jenkinsfile" := by
    unfold admitted at hadm
    simp only [Bool.or_eq_true, List.any_eq_true, beq_iff_eq] at hadm
    rcases hadm with (⟨e, he1, he2⟩ | h) | h
    · exfalso
      have hsuf : e.data <:+ f.data := List.isSuffixOf_iff_suffix.1 he2
      have hdot_e : '.' ∈ e.data := by
        simp only [TEXT_EXTENSIONS] at he1
        fin_cases he1 <;> decide
      exact hdot (hsuf.subset hdot_e)
    · exact Or.inl h
    · exact Or.inr h
  rcases hf with rfl | rfl
  · have hkey : pyLastSeg '.' ("Dockerfile").data = S ("Dockerfile") := by
      rw [pyLastSeg, splitOnC_no_sep '.' _ hdot]
      rfl
    simp only [importsOf, hkey]
    rfl
  · have hkey : pyLastSeg '.' ("Jenkinsfile").data = S ("Jenkinsfile") := by
      rw [pyLastSeg, splitOnC_no_sep '.' _ hdot]
      rfl
    simp only [importsOf, hkey]
    rfl

theorem dotless_admitted_no_imports_witness :
    ('.' ∉ ("Dockerfile" : String).data) ∧ admitted ("Dockerfile") = true ∧
    importsOf ("Dockerfile" : String).data ("import os" : String).data = [] := by
  exact ⟨by decide, by decide,
    dotless_admitted_no_imports ("Dockerfile") ("import os") (by decide) (by decide)⟩
